import Mathlib

/-!
Verification development for the image-renamer application.

The embedding models the embedded-tags extraction service
(`embeddedTagsService.ts`), the people-detection service
(`peopleDetectionService.ts`) and the per-photo pipeline and batch
scheduler (`image-renamer.tsx`).  Strings are modelled as `List Char`;
the JavaScript regular expressions used by the source are implemented
as explicit scanning functions with the same first-match/global-match
semantics; JavaScript numbers produced by `parseFloat` are modelled as
exact rationals together with the two infinities, with `NaN`
represented by `Option.none`.
-/

set_option maxRecDepth 100000

namespace ImageRenamer

abbrev Str := List Char

def str (s : String) : Str := s.data

/-- Rest of `s` after the literal `lit`, when `lit` is a front segment of `s`. -/
def litAt : Str → Str → Option Str
  | [], s => some s
  | _ :: _, [] => none
  | a :: as, b :: bs => if a = b then litAt as bs else none

/-- Index of the first occurrence of `pat` inside `s` (literal search). -/
def findSub (pat : Str) : Str → Option Nat
  | [] => if (litAt pat []).isSome then some 0 else none
  | a :: t =>
    if (litAt pat (a :: t)).isSome then some 0
    else (findSub pat t).map (· + 1)

def closeLit (tag : Str) : Str := '<' :: '/' :: (tag ++ ['>'])

/-- Anchored match of the opening-tag pattern `<TAG[^>]*>`: consumed length
and the remainder after the closing angle bracket. -/
def tagOpenAt (tag : Str) (s : Str) : Option (Nat × Str) :=
  match litAt ('<' :: tag) s with
  | none => none
  | some r1 =>
    let attrs := r1.takeWhile (fun d => d != '>')
    let r2 := r1.dropWhile (fun d => d != '>')
    match r2 with
    | [] => none
    | _ :: r3 => some (1 + tag.length + attrs.length + 1, r3)

/-- Anchored match of `<TAG[^>]*>(.*?)</TAG>` with dot-matches-newline and a
lazy capture: (consumed length, capture, rest after the match). -/
def lazyBodyAt (tag : Str) (s : Str) : Option (Nat × Str × Str) :=
  match tagOpenAt tag s with
  | none => none
  | some (n1, r) =>
    match findSub (closeLit tag) r with
    | none => none
    | some k => some (n1 + k + (closeLit tag).length, r.take k, r.drop (k + (closeLit tag).length))

/-- Anchored match of `<TAG[^>]*>([^<]+)</TAG>`: the capture is the nonempty
run of characters other than an opening angle bracket, and the closing tag
must follow it immediately. -/
def textBodyAt (tag : Str) (s : Str) : Option (Nat × Str × Str) :=
  match tagOpenAt tag s with
  | none => none
  | some (n1, r) =>
    let run := r.takeWhile (fun d => d != '<')
    let rest := r.dropWhile (fun d => d != '<')
    if run.isEmpty then none
    else
      match litAt (closeLit tag) rest with
      | none => none
      | some r2 => some (n1 + run.length + (closeLit tag).length, run, r2)

/-- Anchored match of the pattern matching a closing angle bracket, a nonempty
run of text, then an opening angle bracket, capturing the text run. -/
def simpleCapAt (s : Str) : Option (Nat × Str × Str) :=
  match s with
  | '>' :: r =>
    let run := r.takeWhile (fun d => d != '<')
    let rest := r.dropWhile (fun d => d != '<')
    if run.isEmpty then none
    else
      match rest with
      | [] => none
      | _ :: rest2 => some (1 + run.length + 1, run, rest2)
  | _ => none

/-- First match of an anchored matcher anywhere in `s`, scanning start
positions left to right: (full matched segment, capture, rest). -/
def firstMatch (m : Str → Option (Nat × Str × Str)) : Str → Option (Str × Str × Str)
  | [] =>
    match m [] with
    | some (n, cap, rest) => some ((List.nil).take n, cap, rest)
    | none => none
  | a :: t =>
    match m (a :: t) with
    | some (n, cap, rest) => some ((a :: t).take n, cap, rest)
    | none => firstMatch m t

/-- Fuelled global matching: repeatedly take the first match and continue
after it, as JavaScript `String.match` does with the global flag. -/
def allGo (m : Str → Option (Nat × Str × Str)) : Nat → Str → List (Str × Str)
  | 0, _ => []
  | n + 1, s =>
    match firstMatch m s with
    | none => []
    | some (full, cap, rest) => (full, cap) :: allGo m n rest

def allMatches (m : Str → Option (Nat × Str × Str)) (s : Str) : List (Str × Str) :=
  allGo m (s.length + 1) s

/-- JavaScript whitespace (the class matched by a whitespace escape in a
regular expression and trimmed by `String.trim`), by code point. -/
def isJSWhite (c : Char) : Bool :=
  let n := c.toNat
  n == 9 || n == 10 || n == 11 || n == 12 || n == 13 || n == 32 ||
  n == 0xa0 || n == 0x1680 || (0x2000 ≤ n && n ≤ 0x200a) ||
  n == 0x2028 || n == 0x2029 || n == 0x202f || n == 0x205f ||
  n == 0x3000 || n == 0xfeff

def jsTrim (s : Str) : Str :=
  ((s.dropWhile isJSWhite).reverse.dropWhile isJSWhite).reverse

/-- Characters kept by the filename normalization: lowercase ASCII letters,
ASCII digits and the underscore. -/
def isAllowed (c : Char) : Bool :=
  let n := c.toNat
  (97 ≤ n && n ≤ 122) || (48 ≤ n && n ≤ 57) || n == 95

/-- Lowercasing, applied per character. The source lowercases via JavaScript
`toLowerCase`; characters outside ASCII that differ under full Unicode
lowercasing are removed by the character filter of the normalization chain
either way. -/
def lowerStr (s : Str) : Str := s.map Char.toLower

/-- Replace every maximal whitespace run by a single underscore.  The flag
records whether the scanner is inside a run whose underscore was emitted. -/
def wsRun : Bool → Str → Str
  | _, [] => []
  | true, c :: t => if isJSWhite c then wsRun true t else c :: wsRun false t
  | false, c :: t => if isJSWhite c then '_' :: wsRun true t else c :: wsRun false t

def wsToUnderscore (s : Str) : Str := wsRun false s

def keepAllowed (s : Str) : Str := s.filter isAllowed

/-- Collapse every maximal underscore run to a single underscore. -/
def usRun : Bool → Str → Str
  | _, [] => []
  | true, c :: t => if c = '_' then usRun true t else c :: usRun false t
  | false, c :: t => if c = '_' then '_' :: usRun true t else c :: usRun false t

def collapseUnderscores (s : Str) : Str := usRun false s

def dropLeadUnderscore : Str → Str
  | [] => []
  | c :: t => if c = '_' then t else c :: t

def dropFinalUnderscore : Str → Str
  | [] => []
  | [c] => if c = '_' then [] else [c]
  | c :: d :: t => c :: dropFinalUnderscore (d :: t)

def trimEdgeUnderscores (s : Str) : Str :=
  dropFinalUnderscore (dropLeadUnderscore s)

/-- The filename normalization chain of the source: lowercase, whitespace
runs to underscores, strip disallowed characters, collapse underscore runs,
trim one leading and one trailing underscore. -/
def normalizeName (s : Str) : Str :=
  trimEdgeUnderscores (collapseUnderscores (keepAllowed (wsToUnderscore (lowerStr s))))

/-- Split on a separator character, as JavaScript `String.split` with a
single-character separator. -/
def splitOnChar (sep : Char) : Str → List Str
  | [] => [[]]
  | c :: t =>
    if c = sep then [] :: splitOnChar sep t
    else
      match splitOnChar sep t with
      | h :: r => (c :: h) :: r
      | [] => [[c]]

/-- A JavaScript number other than `NaN`: an exact rational or an infinity. -/
inductive JSNum where
  | finite (q : ℚ)
  | posInf
  | negInf
deriving DecidableEq

def digitsVal (ds : Str) : Nat := ds.foldl (fun acc d => 10 * acc + (d.toNat - 48)) 0

def readExp (t : Str) : Int :=
  let (esgn, t1) : Int × Str :=
    match t with
    | '+' :: u => (1, u)
    | '-' :: u => (-1, u)
    | u => (1, u)
  let ds := t1.takeWhile Char.isDigit
  if ds.isEmpty then 0 else esgn * (digitsVal ds : Int)

/-- JavaScript `parseFloat`: longest valid decimal-literal front segment,
`Infinity` accepted, `none` for `NaN`. -/
def parseFloat (s : Str) : Option JSNum :=
  let (sgn, s1) : Int × Str :=
    match s with
    | '+' :: t => (1, t)
    | '-' :: t => (-1, t)
    | t => (1, t)
  match litAt (str "Infinity") s1 with
  | some _ => some (if sgn = 1 then JSNum.posInf else JSNum.negInf)
  | none =>
    let intPart := s1.takeWhile Char.isDigit
    let r1 := s1.dropWhile Char.isDigit
    let (fracPart, r2) :=
      match r1 with
      | '.' :: t => (t.takeWhile Char.isDigit, t.dropWhile Char.isDigit)
      | _ => ([], r1)
    if intPart.isEmpty && fracPart.isEmpty then none
    else
      let expVal : Int :=
        match r2 with
        | 'e' :: t => readExp t
        | 'E' :: t => readExp t
        | _ => 0
      -- value = sgn * (intPart.fracPart) * 10 ^ expVal, as an exact rational
      let base : Int :=
        sgn * Int.ofNat (digitsVal intPart * 10 ^ fracPart.length + digitsVal fracPart)
      let q : ℚ :=
        if 0 ≤ expVal then mkRat (base * Int.ofNat (10 ^ expVal.toNat)) (10 ^ fracPart.length)
        else mkRat base (10 ^ fracPart.length * 10 ^ (-expVal).toNat)
      some (JSNum.finite q)

inductive Source where
  | windows_gallery
  | adobe_bridge
  | other_xmp
deriving DecidableEq

structure BoundingBox where
  x : JSNum
  y : JSNum
  width : JSNum
  height : JSNum
deriving DecidableEq

structure EmbeddedPerson where
  name : Str
  boundingBox : Option BoundingBox := none
  source : Source
deriving DecidableEq

structure TagExtractionResult where
  people : List EmbeddedPerson
  hasEmbeddedTags : Bool
  software : Option Str := none
deriving DecidableEq

/-- The capture of `<MP:Rectangle[^>]*>([^<]+)</MP:Rectangle>` is split on
commas, each piece trimmed and parsed; a bounding box is produced exactly
when there are four pieces and each parses to a number other than `NaN`. -/
def extractMSBoundingBox (regionXml : Str) : Option BoundingBox :=
  match firstMatch (textBodyAt (str "MP:Rectangle")) regionXml with
  | none => none
  | some (_, cap, _) =>
    let coords := (splitOnChar ',' cap).map fun n => parseFloat (jsTrim n)
    if coords.length == 4 && coords.all Option.isSome then
      match coords with
      | [some a, some b, some c, some d] => some ⟨a, b, c, d⟩
      | _ => none
    else none

/-- Display name of a Microsoft region: the first of the fields
`MP:PersonDisplayName`, `MP:Name`, `MP:Person` that matches, trimmed. -/
def extractMSPersonName (regionXml : Str) : Option Str :=
  match firstMatch (textBodyAt (str "MP:PersonDisplayName")) regionXml with
  | some (_, cap, _) => some (jsTrim cap)
  | none =>
    match firstMatch (textBodyAt (str "MP:Name")) regionXml with
    | some (_, cap, _) => some (jsTrim cap)
    | none =>
      match firstMatch (textBodyAt (str "MP:Person")) regionXml with
      | some (_, cap, _) => some (jsTrim cap)
      | none => none

/-- One Microsoft `rdf:li` region: a region with a truthy (nonempty) person
name becomes an entry, with the optional bounding box. -/
def msPersonOfRegion (region : Str) : Option EmbeddedPerson :=
  match extractMSPersonName region with
  | none => none
  | some n =>
    if n = [] then none
    else some { name := n, boundingBox := extractMSBoundingBox region, source := .windows_gallery }

def parseMSRegionItems (regions : Str) : List EmbeddedPerson :=
  ((allMatches (lazyBodyAt (str "rdf:li")) regions).map Prod.fst).filterMap msPersonOfRegion

def parseMSRegionsList (info : Str) : List EmbeddedPerson :=
  match firstMatch (lazyBodyAt (str "MP:Regions")) info with
  | none => []
  | some (_, regions, _) => parseMSRegionItems regions

/-- Microsoft People Tag schema: `MP:RegionInfo`, inside it `MP:Regions`,
inside it the list of `rdf:li` regions. -/
def parseMicrosoftPeopleTags (xmpString : Str) : List EmbeddedPerson :=
  match firstMatch (lazyBodyAt (str "MP:RegionInfo")) xmpString with
  | none => []
  | some (_, info, _) => parseMSRegionsList info

/-- One MWG `rdf:li` region: a region with an `mwg-rs:Name` field becomes an
entry with its trimmed name (no bounding box support). -/
def mwgPersonOfRegion (region : Str) : Option EmbeddedPerson :=
  match firstMatch (textBodyAt (str "mwg-rs:Name")) region with
  | none => none
  | some (_, cap, _) => some { name := jsTrim cap, source := .adobe_bridge }

def parseMWGItems (regions : Str) : List EmbeddedPerson :=
  ((allMatches (lazyBodyAt (str "rdf:li")) regions).map Prod.fst).filterMap mwgPersonOfRegion

def parseMWGRegionsList (info : Str) : List EmbeddedPerson :=
  match firstMatch (lazyBodyAt (str "mwg-rs:Regions")) info with
  | none => []
  | some (_, regions, _) => parseMWGItems regions

/-- Metadata Working Group regions: `mwg-rs:RegionInfo`, inside it
`mwg-rs:Regions`, inside it `rdf:li` regions. -/
def parseMWGRegions (xmpString : Str) : List EmbeddedPerson :=
  match firstMatch (lazyBodyAt (str "mwg-rs:RegionInfo")) xmpString with
  | none => []
  | some (_, info, _) => parseMWGRegionsList info

/-- Name found inside one matched fragment: the first closing angle bracket
followed by a nonempty text run then an opening angle bracket. -/
def iptcNameOf (fragment : Str) : Option EmbeddedPerson :=
  match firstMatch simpleCapAt fragment with
  | none => none
  | some (_, cap, _) => some { name := jsTrim cap, source := .other_xmp }

/-- The simple-bag format: the `rdf:li` items of the first
`Iptc4xmpExt:PersonInImage` match, when there is one. -/
def iptcBagPeople : Option (Str × Str × Str) → List EmbeddedPerson
  | none => []
  | some (_, bagContent, _) =>
    ((allMatches (textBodyAt (str "rdf:li")) bagContent).map Prod.fst).filterMap iptcNameOf

/-- IPTC extension person tags: every `Iptc4xmpExt:PersonInImage` element
(global match, full fragments), then additionally the `rdf:li` items of the
first such element. -/
def parseIPTCPersonTags (xmpString : Str) : List EmbeddedPerson :=
  ((allMatches (lazyBodyAt (str "Iptc4xmpExt:PersonInImage")) xmpString).map Prod.fst).filterMap
      iptcNameOf ++
    iptcBagPeople (firstMatch (lazyBodyAt (str "Iptc4xmpExt:PersonInImage")) xmpString)

/-- Index of worker and list positions: pair each element with its index,
starting at `n`. -/
def withIdx (n : Nat) : List EmbeddedPerson → List (Nat × EmbeddedPerson)
  | [] => []
  | a :: t => (n, a) :: withIdx (n + 1) t

/-- First index whose entry has the given lowercased name, as JavaScript
`findIndex` over the people list. -/
def firstIdxWithKey (k : Str) : List EmbeddedPerson → Option Nat
  | [] => none
  | p :: t => if lowerStr p.name = k then some 0 else (firstIdxWithKey k t).map (· + 1)

/-- The source deduplicates with `filter((person, index, self) => index ===
self.findIndex(p => p.name.toLowerCase() === person.name.toLowerCase()))`:
an entry is kept exactly when its index is the first index of its
case-insensitive name. -/
def dedupPeople (l : List EmbeddedPerson) : List EmbeddedPerson :=
  ((withIdx 0 l).filter fun ip => firstIdxWithKey (lowerStr ip.2.name) l == some ip.1).map Prod.snd

/-- Concatenate the three schema scans in Microsoft, MWG, IPTC order, then
deduplicate by case-insensitive name keeping first occurrences. -/
def parsePeopleFromXMP (xmpString : Str) : List EmbeddedPerson :=
  dedupPeople (parseMicrosoftPeopleTags xmpString ++ parseMWGRegions xmpString ++ parseIPTCPersonTags xmpString)

structure PhotoMetadata where
  xmp : Option Str
  software : Option Str := none
  processingSoftware : Option Str := none
deriving DecidableEq

/-- Outcome of the metadata read: the library call may throw, return a null
result, or return a metadata object. -/
inductive MetadataFetch where
  | fetchErr
  | noMetadata
  | withMetadata (m : PhotoMetadata)
deriving DecidableEq

/-- JavaScript `a || b` over optional strings: the empty string is falsy. -/
def jsOr (a b : Option Str) : Option Str :=
  match a with
  | some s => if s = [] then b else some s
  | none => b

/-- `extractPeopleTags`: a throwing or null metadata read yields zero people;
otherwise the XMP text, when present and truthy, is parsed for people and
`hasEmbeddedTags` is set to whether any were found. -/
def extractPeopleTags : MetadataFetch → TagExtractionResult
  | .fetchErr => { people := [], hasEmbeddedTags := false }
  | .noMetadata => { people := [], hasEmbeddedTags := false }
  | .withMetadata m =>
    let base : TagExtractionResult :=
      { people := [], hasEmbeddedTags := false, software := jsOr m.software m.processingSoftware }
    match m.xmp with
    | none => base
    | some x =>
      if x = [] then base
      else
        let ppl := parsePeopleFromXMP x
        { base with people := ppl, hasEmbeddedTags := decide (0 < ppl.length) }

inductive Confidence where
  | high
  | medium
  | low
deriving DecidableEq

structure DetectedPerson where
  name : Str
  confidence : Confidence
  description : Option Str := none
deriving DecidableEq

/-- Outcome of the detection-service call as seen at the call site: a thrown
network error, a response with a non-OK status, a body that fails JSON
parsing, or a parsed body whose `detectedPeople` field may be absent. -/
inductive DetectResponse where
  | netErr
  | httpNotOk (status : Nat)
  | badJson
  | okBody (detectedPeople : Option (List DetectedPerson))
deriving DecidableEq

/-- `detectPeopleInImage`: a non-OK status returns the empty list, a thrown
error (network or JSON parsing) is caught and returns the empty list, and a
missing `detectedPeople` field defaults to the empty list. -/
def detectPeopleInImage : DetectResponse → List DetectedPerson
  | .netErr => []
  | .httpNotOk _ => []
  | .badJson => []
  | .okBody none => []
  | .okBody (some l) => l

def isDetectFailureResponse : DetectResponse → Bool
  | .okBody (some _) => false
  | _ => true

/-- Outcome of the description-service call: thrown network error, non-OK
status, JSON parse failure, or a parsed body whose `suggestedName` field may
be absent. -/
inductive DescribeOutcome where
  | netErr
  | httpNotOk (status : Nat)
  | badJson
  | okBody (suggestedName : Option Str)
deriving DecidableEq

/-- `originalName.split('.').pop() || 'jpeg'`. -/
def fallbackExtensionOf (originalName : Str) : Str :=
  match (splitOnChar '.' originalName).getLast? with
  | some last => if last = [] then str "jpeg" else last
  | none => str "jpeg"

/-- The fallback name built on a description failure: a fixed front part,
the current timestamp, and the extension popped from the original name. -/
def fallbackName (originalName : Str) (now : Nat) : Str :=
  str "processed_" ++ str (Nat.repr now) ++ '.' :: fallbackExtensionOf originalName

/-- `generateDescriptiveName`: every failure (thrown error, non-OK status,
bad JSON, missing or falsy `suggestedName`) is caught and degrades to the
fallback name. -/
def generateDescriptiveName (o : DescribeOutcome) (originalName : Str) (now : Nat) : Str :=
  match o with
  | .okBody (some n) => if n = [] then fallbackName originalName now else n
  | _ => fallbackName originalName now

def describeFails : DescribeOutcome → Bool
  | .okBody (some n) => n == []
  | _ => true

/-- JavaScript `Array.join` with a separator. -/
def joinSep (sep : Str) : List Str → Str
  | [] => []
  | [x] => x
  | x :: xs => x ++ sep ++ joinSep sep xs

/-- Split at `lastIndexOf('.')`: name without extension, and the extension
including its dot (both empty-extension when there is no dot). -/
def lastDotSplit (s : Str) : Str × Str :=
  match s.reverse.findIdx? (fun c => c == '.') with
  | none => (s, [])
  | some j =>
    let i := s.length - 1 - j
    (s.take i, s.drop i)

/-- Environment of one `processImage` run: the photo's fields and the
behavior of the external collaborators during this run. -/
structure PhotoEnv where
  originalName : Str
  photoDate : Option Str
  isAlreadyRenamed : Bool
  fetchOutcome : MetadataFetch
  detectResponse : DetectResponse
  describeOutcome : DescribeOutcome
  now : Nat
deriving DecidableEq

structure ProcOut where
  suggestedName : Str
  processed : Bool
  detectCalls : Nat
  resolvedNames : List Str
  embeddedPeople : List EmbeddedPerson
  detectedPeople : List DetectedPerson
deriving DecidableEq

/-- Per-detected-person name formatting used in the filename step:
`toLowerCase` then whitespace runs to underscores (and nothing else). -/
def detNameFormat (n : Str) : Str := wsToUnderscore (lowerStr n)

/-- The embedded people of the run: STEP 1 of `processImage`. -/
def procEmbedded (env : PhotoEnv) : List EmbeddedPerson :=
  (extractPeopleTags env.fetchOutcome).people

/-- STEP 2 of `processImage`: the detection collaborator is consulted only
when no embedded people were found. -/
def procDetected (env : PhotoEnv) : List DetectedPerson :=
  if (procEmbedded env).length = 0 then detectPeopleInImage env.detectResponse else []

/-- Number of invocations of the detection collaborator during the run. -/
def procDetectCalls (env : PhotoEnv) : Nat :=
  if (procEmbedded env).length = 0 then 1 else 0

/-- STEP 4 people-name selection: embedded tags take priority and are fully
normalized with empty results dropped; otherwise detected people of high or
medium confidence are formatted with lowercasing and whitespace replacement
only. -/
def resolvePeopleNames (embeddedPeople : List EmbeddedPerson)
    (detectedPeople : List DetectedPerson) : List Str :=
  if 0 < embeddedPeople.length then
    (embeddedPeople.map fun p => normalizeName p.name).filter fun n => 0 < n.length
  else if 0 < detectedPeople.length then
    (detectedPeople.filter fun p =>
      p.confidence == Confidence.high || p.confidence == Confidence.medium).map fun p =>
        detNameFormat p.name
  else []

/-- STEP 4 filename assembly: date part, then the joined people names when
any, then the description without its extension; joined with underscores and
the extension appended back. -/
def assembleName (photoDate : Option Str) (peopleNames : List Str) (sn : Str) : Str :=
  let nameWithoutExt := (lastDotSplit sn).1
  let extension := (lastDotSplit sn).2
  let dateParts : List Str :=
    match photoDate with
    | some d => [d]
    | none => []
  let parts :=
    dateParts ++ (if 0 < peopleNames.length then [joinSep (str "_and_") peopleNames] else []) ++
      [nameWithoutExt]
  joinSep (str "_") parts ++ extension

/-- Steps 1-4 of `processImage` for a photo that is not skipped. -/
def procRun (env : PhotoEnv) : ProcOut :=
  if generateDescriptiveName env.describeOutcome env.originalName env.now ≠ [] then
    { suggestedName :=
        assembleName env.photoDate (resolvePeopleNames (procEmbedded env) (procDetected env))
          (generateDescriptiveName env.describeOutcome env.originalName env.now),
      processed := true, detectCalls := procDetectCalls env,
      resolvedNames := resolvePeopleNames (procEmbedded env) (procDetected env),
      embeddedPeople := procEmbedded env, detectedPeople := procDetected env }
  else
    { suggestedName := [], processed := true, detectCalls := procDetectCalls env,
      resolvedNames := [], embeddedPeople := procEmbedded env,
      detectedPeople := procDetected env }

/-- The per-photo pipeline `processImage`: skip when already renamed;
otherwise extract embedded tags, invoke detection only when no embedded
people were found, generate the description, and assemble the filename from
date, people names and description.  `detectCalls` counts invocations of
the detection collaborator; `resolvedNames` is the people name-token list
used for the filename. -/
def processImageCore (env : PhotoEnv) : ProcOut :=
  if env.isAlreadyRenamed then
    { suggestedName := env.originalName, processed := true, detectCalls := 0,
      resolvedNames := [], embeddedPeople := [], detectedPeople := [] }
  else
    procRun env

/-- Status of one worker of the batch pool: ready to claim, running the
pipeline for a claimed queue position, or ended (its loop broke). -/
inductive WStatus where
  | idle
  | working (i : Nat)
  | done
deriving DecidableEq

/-- Shared state of `processAllImages`: the shared queue cursor, the pool of
workers, the log of claims `(worker, position)` with position below the
batch size, and the queue positions whose pipeline run completed, in
completion order. -/
structure SchedState where
  qIndex : Nat
  workers : List WStatus
  claims : List (Nat × Nat)
  finished : List Nat
deriving DecidableEq

/-- One atomic step of the cooperative scheduler.  A claim is
`const i = index++` followed by the bound check, which runs synchronously
(atomically) in the event loop; processing a claimed position takes
arbitrarily many scheduler steps and ends with a `finish` step. -/
inductive SchedStep (N : Nat) : SchedState → SchedState → Prop where
  | claim_run : ∀ pre post i cl fin, i < N →
      SchedStep N ⟨i, pre ++ WStatus.idle :: post, cl, fin⟩
        ⟨i + 1, pre ++ WStatus.working i :: post, cl ++ [(pre.length, i)], fin⟩
  | claim_stop : ∀ pre post i cl fin, N ≤ i →
      SchedStep N ⟨i, pre ++ WStatus.idle :: post, cl, fin⟩
        ⟨i + 1, pre ++ WStatus.done :: post, cl, fin⟩
  | finish : ∀ pre post q i cl fin,
      SchedStep N ⟨q, pre ++ WStatus.working i :: post, cl, fin⟩
        ⟨q, pre ++ WStatus.idle :: post, cl, fin ++ [i]⟩

/-- Start state: cursor at zero and `min 3 N` idle workers, as
`new Array(Math.min(CONCURRENCY_LIMIT, ids.length))`. -/
def schedStart (N : Nat) : SchedState :=
  ⟨0, List.replicate (min 3 N) WStatus.idle, [], []⟩

def SchedReach (N : Nat) : SchedState → SchedState → Prop :=
  Relation.ReflTransGen (SchedStep N)

def workingIds (ws : List WStatus) : List Nat :=
  ws.filterMap fun w =>
    match w with
    | .working i => some i
    | _ => none

/-! ### Characterization of the filename normalization -/

/-- No two consecutive underscores. -/
def noDoubleUS : Str → Bool
  | c :: d :: t => if c = '_' ∧ d = '_' then false else noDoubleUS (d :: t)
  | _ => true

theorem allowed_not_white {c : Char} (h : isAllowed c = true) : isJSWhite c = false := by
  simp only [isAllowed, Bool.or_eq_true, Bool.and_eq_true, decide_eq_true_eq, beq_iff_eq] at h
  simp only [isJSWhite, Bool.or_eq_false_iff, Bool.and_eq_false_iff, beq_eq_false_iff_ne, ne_eq,
    decide_eq_false_iff_not, not_le, Bool.and_eq_false_iff]
  omega

theorem allowed_not_us {c : Char} (h : isAllowed c = true) (h95 : c.toNat ≠ 95) : c ≠ '_' := by
  intro he
  subst he
  exact h95 rfl

theorem allowed_toLower {c : Char} (h : isAllowed c = true) : c.toLower = c := by
  simp only [isAllowed, Bool.or_eq_true, Bool.and_eq_true, decide_eq_true_eq, beq_iff_eq] at h
  simp only [Char.toLower]
  rw [if_neg]
  omega

theorem mem_wsRun {c : Char} : ∀ {b : Bool} {s : Str}, c ∈ wsRun b s → c ∈ s ∨ c = '_' := by
  intro b s
  induction s generalizing b with
  | nil => intro h; cases b <;> simp [wsRun] at h
  | cons a t ih =>
    intro h
    by_cases hw : isJSWhite a
    · cases b
      · simp only [wsRun, if_pos hw] at h
        rcases List.mem_cons.mp h with h' | h'
        · exact Or.inr h'
        · rcases ih h' with h'' | h''
          · exact Or.inl (List.mem_cons_of_mem _ h'')
          · exact Or.inr h''
      · simp only [wsRun, if_pos hw] at h
        rcases ih h with h'' | h''
        · exact Or.inl (List.mem_cons_of_mem _ h'')
        · exact Or.inr h''
    · cases b
      · simp only [wsRun, if_neg hw] at h
        rcases List.mem_cons.mp h with h' | h'
        · exact Or.inl (by simp [h'])
        · rcases ih h' with h'' | h''
          · exact Or.inl (List.mem_cons_of_mem _ h'')
          · exact Or.inr h''
      · simp only [wsRun, if_neg hw] at h
        rcases List.mem_cons.mp h with h' | h'
        · exact Or.inl (by simp [h'])
        · rcases ih h' with h'' | h''
          · exact Or.inl (List.mem_cons_of_mem _ h'')
          · exact Or.inr h''

theorem mem_usRun {c : Char} : ∀ {b : Bool} {s : Str}, c ∈ usRun b s → c ∈ s ∨ c = '_' := by
  intro b s
  induction s generalizing b with
  | nil => intro h; cases b <;> simp [usRun] at h
  | cons a t ih =>
    intro h
    by_cases hu : a = '_'
    · cases b
      · simp only [usRun, if_pos hu] at h
        rcases List.mem_cons.mp h with h' | h'
        · exact Or.inr h'
        · rcases ih h' with h'' | h''
          · exact Or.inl (List.mem_cons_of_mem _ h'')
          · exact Or.inr h''
      · simp only [usRun, if_pos hu] at h
        rcases ih h with h'' | h''
        · exact Or.inl (List.mem_cons_of_mem _ h'')
        · exact Or.inr h''
    · cases b
      · simp only [usRun, if_neg hu] at h
        rcases List.mem_cons.mp h with h' | h'
        · exact Or.inl (by simp [h'])
        · rcases ih h' with h'' | h''
          · exact Or.inl (List.mem_cons_of_mem _ h'')
          · exact Or.inr h''
      · simp only [usRun, if_neg hu] at h
        rcases List.mem_cons.mp h with h' | h'
        · exact Or.inl (by simp [h'])
        · rcases ih h' with h'' | h''
          · exact Or.inl (List.mem_cons_of_mem _ h'')
          · exact Or.inr h''

theorem mem_dropLead {c : Char} {s : Str} (h : c ∈ dropLeadUnderscore s) : c ∈ s := by
  cases s with
  | nil => simpa [dropLeadUnderscore] using h
  | cons a t =>
    simp only [dropLeadUnderscore] at h
    by_cases ha : a = '_'
    · rw [if_pos ha] at h; exact List.mem_cons_of_mem _ h
    · rwa [if_neg ha] at h

theorem mem_dropFinal {c : Char} : ∀ {s : Str}, c ∈ dropFinalUnderscore s → c ∈ s := by
  intro s
  induction s with
  | nil => intro h; simpa [dropFinalUnderscore] using h
  | cons a t ih =>
    cases t with
    | nil =>
      intro h
      simp only [dropFinalUnderscore] at h
      by_cases ha : a = '_'
      · rw [if_pos ha] at h; simp at h
      · rw [if_neg ha] at h; exact h
    | cons d t' =>
      intro h
      simp only [dropFinalUnderscore] at h
      rcases List.mem_cons.mp h with h | h
      · simp [h]
      · exact List.mem_cons_of_mem _ (ih h)

theorem keepAllowed_chars {c : Char} {s : Str} (h : c ∈ keepAllowed s) : isAllowed c = true :=
  (List.mem_filter.mp h).2

theorem normalize_chars {c : Char} {s : Str} (h : c ∈ normalizeName s) : isAllowed c = true := by
  unfold normalizeName trimEdgeUnderscores at h
  have h1 := mem_dropLead (mem_dropFinal h)
  rcases mem_usRun h1 with h2 | h2
  · exact keepAllowed_chars h2
  · subst h2; rfl

theorem noDouble_two {c d : Char} {t : Str} (h : noDoubleUS (c :: d :: t) = true) :
    ¬(c = '_' ∧ d = '_') ∧ noDoubleUS (d :: t) = true := by
  by_cases hcd : c = '_' ∧ d = '_'
  · simp only [noDoubleUS, if_pos hcd] at h; exact absurd h (by simp)
  · simp only [noDoubleUS, if_neg hcd] at h; exact ⟨hcd, h⟩

theorem noDouble_cons {c : Char} {l : Str} (hl : noDoubleUS l = true)
    (hh : ∀ d, l.head? = some d → ¬(c = '_' ∧ d = '_')) : noDoubleUS (c :: l) = true := by
  cases l with
  | nil => rfl
  | cons d t =>
    simp only [noDoubleUS, if_neg (hh d rfl)]
    exact hl

theorem noDouble_tail {c : Char} {l : Str} (h : noDoubleUS (c :: l) = true) :
    noDoubleUS l = true := by
  cases l with
  | nil => rfl
  | cons d t => exact (noDouble_two h).2

theorem head_usRun_true {c : Char} : ∀ {s : Str}, (usRun true s).head? = some c → c ≠ '_' := by
  intro s
  induction s with
  | nil => intro h; simp [usRun] at h
  | cons a t ih =>
    intro h
    by_cases ha : a = '_'
    · simp only [usRun, if_pos ha] at h; exact ih h
    · simp only [usRun, if_neg ha, List.head?_cons, Option.some_inj] at h
      exact h ▸ ha

theorem noDouble_usRun : ∀ {b : Bool} {s : Str}, noDoubleUS (usRun b s) = true := by
  intro b s
  induction s generalizing b with
  | nil => cases b <;> rfl
  | cons a t ih =>
    by_cases ha : a = '_'
    · cases b
      · simp only [usRun, if_pos ha]
        refine noDouble_cons ih ?_
        intro d hd hcd
        exact head_usRun_true hd hcd.2
      · simp only [usRun, if_pos ha]; exact ih
    · cases b
      · simp only [usRun, if_neg ha]
        refine noDouble_cons ih ?_
        intro d _ hcd
        exact ha hcd.1
      · simp only [usRun, if_neg ha]
        refine noDouble_cons ih ?_
        intro d _ hcd
        exact ha hcd.1

theorem head_dropFinal {c : Char} : ∀ {s : Str},
    (dropFinalUnderscore s).head? = some c → s.head? = some c := by
  intro s
  induction s with
  | nil => intro h; simp [dropFinalUnderscore] at h
  | cons a t _ =>
    cases t with
    | nil =>
      intro h
      by_cases ha : a = '_'
      · simp only [dropFinalUnderscore, if_pos ha] at h; simp at h
      · simp only [dropFinalUnderscore, if_neg ha] at h; exact h
    | cons d t' =>
      intro h
      simpa only [dropFinalUnderscore, List.head?_cons] using h

theorem noDouble_dropFinal : ∀ {s : Str}, noDoubleUS s = true →
    noDoubleUS (dropFinalUnderscore s) = true := by
  intro s
  induction s with
  | nil => intro _; rfl
  | cons a t ih =>
    cases t with
    | nil =>
      intro _
      by_cases ha : a = '_'
      · simp only [dropFinalUnderscore, if_pos ha]; rfl
      · simp only [dropFinalUnderscore, if_neg ha]; rfl
    | cons d t' =>
      intro h
      simp only [dropFinalUnderscore]
      refine noDouble_cons (ih (noDouble_tail h)) ?_
      intro e he hae
      have hde := head_dropFinal he
      simp only [List.head?_cons, Option.some_inj] at hde
      exact (noDouble_two h).1 ⟨hae.1, hde.trans hae.2⟩

theorem noDouble_dropLead {s : Str} (h : noDoubleUS s = true) :
    noDoubleUS (dropLeadUnderscore s) = true := by
  cases s with
  | nil => rfl
  | cons a t =>
    simp only [dropLeadUnderscore]
    by_cases ha : a = '_'
    · rw [if_pos ha]; exact noDouble_tail h
    · rwa [if_neg ha]

theorem normalize_noDouble {s : Str} : noDoubleUS (normalizeName s) = true := by
  unfold normalizeName trimEdgeUnderscores collapseUnderscores
  exact noDouble_dropFinal (noDouble_dropLead noDouble_usRun)

theorem head_dropLead {s : Str} (h : noDoubleUS s = true) {c : Char}
    (hc : (dropLeadUnderscore s).head? = some c) : c ≠ '_' ∨ s.head? = some c := by
  cases s with
  | nil => simp [dropLeadUnderscore] at hc
  | cons a t =>
    by_cases ha : a = '_'
    · simp only [dropLeadUnderscore, if_pos ha] at hc
      left
      cases t with
      | nil => simp at hc
      | cons d t' =>
        simp only [List.head?_cons, Option.some_inj] at hc
        intro hc'
        exact (noDouble_two h).1 ⟨ha, hc.trans hc'⟩
    · right
      simp only [dropLeadUnderscore, if_neg ha] at hc
      exact hc

theorem trimEdge_head {s : Str} (h : noDoubleUS s = true) {c : Char}
    (hc : (trimEdgeUnderscores s).head? = some c) : c ≠ '_' := by
  unfold trimEdgeUnderscores at hc
  have h1 := head_dropFinal hc
  rcases head_dropLead h h1 with h2 | h2
  · exact h2
  · cases s with
    | nil => simp at h2
    | cons a t =>
      simp only [List.head?_cons, Option.some_inj] at h2
      intro hc'
      have ha : a = '_' := h2.trans hc'
      simp only [dropLeadUnderscore, if_pos ha] at h1
      cases t with
      | nil => simp at h1
      | cons d t' =>
        simp only [List.head?_cons, Option.some_inj] at h1
        exact (noDouble_two h).1 ⟨ha, h1.trans hc'⟩

theorem getLast_dropFinal : ∀ {s : Str}, noDoubleUS s = true →
    ∀ {c : Char}, (dropFinalUnderscore s).getLast? = some c → c ≠ '_' := by
  intro s
  induction s with
  | nil => intro _ c hc; simp [dropFinalUnderscore] at hc
  | cons a t ih =>
    cases t with
    | nil =>
      intro _ c hc
      by_cases ha : a = '_'
      · simp only [dropFinalUnderscore, if_pos ha] at hc; simp at hc
      · simp only [dropFinalUnderscore, if_neg ha, List.getLast?_singleton, Option.some_inj] at hc
        exact hc ▸ ha
    | cons d t' =>
      intro h c hc
      simp only [dropFinalUnderscore] at hc
      rcases heq : dropFinalUnderscore (d :: t') with _ | ⟨e, u⟩
      · rw [heq] at hc
        simp only [List.getLast?_singleton, Option.some_inj] at hc
        cases t' with
        | nil =>
          by_cases hd : d = '_'
          · intro hc'
            exact (noDouble_two h).1 ⟨hc.trans hc', hd⟩
          · simp only [dropFinalUnderscore, if_neg hd] at heq
            exact absurd heq (by simp)
        | cons f t'' =>
          simp only [dropFinalUnderscore] at heq
          exact absurd heq (by simp)
      · rw [heq] at hc
        rw [List.getLast?_cons_cons] at hc
        rw [← heq] at hc
        exact ih (noDouble_tail h) hc

theorem trimEdge_last {s : Str} (h : noDoubleUS s = true) {c : Char}
    (hc : (trimEdgeUnderscores s).getLast? = some c) : c ≠ '_' := by
  unfold trimEdgeUnderscores at hc
  exact getLast_dropFinal (noDouble_dropLead h) hc

theorem normalize_head {s : Str} {c : Char} (hc : (normalizeName s).head? = some c) : c ≠ '_' := by
  unfold normalizeName at hc
  exact trimEdge_head (by unfold collapseUnderscores; exact noDouble_usRun) hc

theorem normalize_last {s : Str} {c : Char} (hc : (normalizeName s).getLast? = some c) : c ≠ '_' := by
  unfold normalizeName at hc
  exact trimEdge_last (by unfold collapseUnderscores; exact noDouble_usRun) hc

theorem lowerStr_fixed {s : Str} (h : ∀ c ∈ s, isAllowed c = true) : lowerStr s = s := by
  induction s with
  | nil => rfl
  | cons a t ih =>
    simp only [lowerStr, List.map_cons]
    rw [allowed_toLower (h a (by simp))]
    have := ih fun c hc => h c (List.mem_cons_of_mem _ hc)
    simp only [lowerStr] at this
    rw [this]

theorem wsRun_fixed {s : Str} (h : ∀ c ∈ s, isAllowed c = true) : ∀ b, wsRun b s = s := by
  induction s with
  | nil => intro b; cases b <;> rfl
  | cons a t ih =>
    intro b
    have hw : ¬(isJSWhite a = true) := by
      rw [allowed_not_white (h a (by simp))]; simp
    have ht := ih fun c hc => h c (List.mem_cons_of_mem _ hc)
    cases b
    · simp only [wsRun, if_neg hw]
      rw [ht false]
    · simp only [wsRun, if_neg hw]
      rw [ht false]

theorem keepAllowed_fixed {s : Str} (h : ∀ c ∈ s, isAllowed c = true) : keepAllowed s = s :=
  List.filter_eq_self.mpr h

theorem usRun_fixed : ∀ {s : Str}, noDoubleUS s = true →
    (usRun false s = s ∧ ((∀ c, s.head? = some c → c ≠ '_') → usRun true s = s)) := by
  intro s
  induction s with
  | nil => exact fun _ => ⟨rfl, fun _ => rfl⟩
  | cons a t ih =>
    intro h
    obtain ⟨ihf, iht⟩ := ih (noDouble_tail h)
    constructor
    · by_cases ha : a = '_'
      · subst ha
        simp only [usRun, eq_self_iff_true, and_self, if_true]
        rw [List.cons.injEq]
        refine ⟨rfl, ?_⟩
        apply iht
        intro c hc hc'
        cases t with
        | nil => simp at hc
        | cons d t' =>
          simp only [List.head?_cons, Option.some_inj] at hc
          exact (noDouble_two h).1 ⟨rfl, hc.trans hc'⟩
      · simp only [usRun, if_neg ha]
        rw [ihf]
    · intro hh
      have ha : a ≠ '_' := hh a rfl
      simp only [usRun, if_neg ha]
      rw [ihf]

theorem dropFinal_fixed : ∀ {s : Str}, (∀ c, s.getLast? = some c → c ≠ '_') →
    dropFinalUnderscore s = s := by
  intro s
  induction s with
  | nil => intro _; rfl
  | cons a t ih =>
    intro hl
    cases t with
    | nil =>
      simp only [dropFinalUnderscore]
      rw [if_neg (hl a (by simp))]
    | cons d t' =>
      simp only [dropFinalUnderscore]
      rw [ih fun c hc => hl c (by rw [List.getLast?_cons_cons]; exact hc)]

theorem trimEdge_fixed {s : Str} (hh : ∀ c, s.head? = some c → c ≠ '_')
    (hl : ∀ c, s.getLast? = some c → c ≠ '_') : trimEdgeUnderscores s = s := by
  have h1 : dropLeadUnderscore s = s := by
    cases s with
    | nil => rfl
    | cons a t =>
      simp only [dropLeadUnderscore]
      rw [if_neg (hh a rfl)]
  unfold trimEdgeUnderscores
  rw [h1]
  exact dropFinal_fixed hl

/-- Shared helper: the normalization is idempotent, because its output
consists of allowed characters with no doubled and no edge underscores. -/
theorem normalize_fixed (s : Str) : normalizeName (normalizeName s) = normalizeName s := by
  have hchars : ∀ c ∈ normalizeName s, isAllowed c = true := fun c hc => normalize_chars hc
  have h1 : lowerStr (normalizeName s) = normalizeName s := lowerStr_fixed hchars
  have h2 : wsToUnderscore (normalizeName s) = normalizeName s := by
    unfold wsToUnderscore; exact wsRun_fixed hchars false
  have h3 : keepAllowed (normalizeName s) = normalizeName s := keepAllowed_fixed hchars
  have h4 : collapseUnderscores (normalizeName s) = normalizeName s := by
    unfold collapseUnderscores; exact (usRun_fixed normalize_noDouble).1
  have h5 : trimEdgeUnderscores (normalizeName s) = normalizeName s :=
    trimEdge_fixed (fun c hc => normalize_head hc) (fun c hc => normalize_last hc)
  show trimEdgeUnderscores (collapseUnderscores (keepAllowed (wsToUnderscore (lowerStr (normalizeName s))))) = normalizeName s
  rw [h1, h2, h3, h4, h5]

/-- C10: the name-normalization function (lowercase, whitespace to
underscores, strip characters outside the allowed class, collapse repeated
underscores, trim edge underscores) is idempotent. -/
theorem c10_normalizeName_idempotent :
    ∀ s : Str, normalizeName (normalizeName s) = normalizeName s :=
  normalize_fixed

/-! ### Extraction invariant and external-call error handling -/

/-- C4: for every metadata-fetch outcome, including absent or null metadata
and a throwing read, the extraction result satisfies the invariant that
`hasEmbeddedTags` holds exactly when the people list is nonempty. -/
theorem c4_hasEmbeddedTags_invariant :
    ∀ f : MetadataFetch,
      (extractPeopleTags f).hasEmbeddedTags = decide (0 < (extractPeopleTags f).people.length) := by
  intro f
  cases f with
  | fetchErr => rfl
  | noMetadata => rfl
  | withMetadata m =>
    obtain ⟨xmp, sw, psw⟩ := m
    cases xmp with
    | none => rfl
    | some x =>
      by_cases hempty : x = []
      · simp only [extractPeopleTags, if_pos hempty]
        rfl
      · simp only [extractPeopleTags, if_neg hempty]

/-- C7: every failing detection call (thrown network error, non-OK HTTP
status, body that fails JSON parsing, or missing payload field) yields the
empty detection list at the caller. -/
theorem c7_detect_failure_empty :
    ∀ r : DetectResponse, isDetectFailureResponse r = true → detectPeopleInImage r = [] := by
  intro r h
  cases r with
  | netErr => rfl
  | httpNotOk s => rfl
  | badJson => rfl
  | okBody l =>
    cases l with
    | none => rfl
    | some l' => exact absurd h (by simp [isDetectFailureResponse])

theorem c7_witness :
    isDetectFailureResponse DetectResponse.netErr = true ∧
      detectPeopleInImage DetectResponse.netErr = [] :=
  ⟨rfl, c7_detect_failure_empty DetectResponse.netErr rfl⟩

/-! ### The per-photo pipeline -/

theorem fallbackName_ne_nil (n : Str) (now : Nat) : fallbackName n now ≠ [] := by
  unfold fallbackName
  intro h
  have h2 := congrArg List.length h
  rw [List.length_append, List.length_append] at h2
  simp [List.length_cons] at h2

theorem genName_ne_nil (o : DescribeOutcome) (n : Str) (now : Nat) :
    generateDescriptiveName o n now ≠ [] := by
  cases o with
  | okBody sn =>
    cases sn with
    | none => exact fallbackName_ne_nil n now
    | some nm =>
      by_cases hnm : nm = []
      · simp only [generateDescriptiveName, if_pos hnm]; exact fallbackName_ne_nil n now
      · simp only [generateDescriptiveName, if_neg hnm]; exact hnm
  | netErr => exact fallbackName_ne_nil n now
  | httpNotOk s => exact fallbackName_ne_nil n now
  | badJson => exact fallbackName_ne_nil n now

theorem procRun_eq (env : PhotoEnv) :
    procRun env =
      { suggestedName :=
          assembleName env.photoDate (resolvePeopleNames (procEmbedded env) (procDetected env))
            (generateDescriptiveName env.describeOutcome env.originalName env.now),
        processed := true, detectCalls := procDetectCalls env,
        resolvedNames := resolvePeopleNames (procEmbedded env) (procDetected env),
        embeddedPeople := procEmbedded env, detectedPeople := procDetected env } := by
  unfold procRun
  rw [if_pos (genName_ne_nil _ _ _)]

theorem processImageCore_not_renamed (env : PhotoEnv) (hn : env.isAlreadyRenamed = false) :
    processImageCore env = procRun env := by
  unfold processImageCore
  rw [if_neg (by rw [hn]; simp)]

theorem resolvePeople_nil_emb (d : List DetectedPerson) :
    resolvePeopleNames [] d =
      (d.filter fun p => p.confidence == Confidence.high || p.confidence == Confidence.medium).map
        fun p => detNameFormat p.name := by
  unfold resolvePeopleNames
  rw [if_neg (by simp)]
  by_cases hd : 0 < d.length
  · rw [if_pos hd]
  · rw [if_neg hd]
    have hnil : d = [] := by
      cases d with
      | nil => rfl
      | cons a t => simp at hd
    subst hnil
    rfl

/-- C1: for every photo that the pipeline processes, if the extracted people
list is nonempty the detection collaborator is never invoked; if it is
empty, the collaborator is invoked exactly once and the resolved name list
is exactly the formatted names of the high- and medium-confidence detected
entries, in detector return order. -/
theorem c1_detect_decision (env : PhotoEnv) (hn : env.isAlreadyRenamed = false) :
    ((extractPeopleTags env.fetchOutcome).people ≠ [] →
      (processImageCore env).detectCalls = 0) ∧
    ((extractPeopleTags env.fetchOutcome).people = [] →
      (processImageCore env).detectCalls = 1 ∧
      (processImageCore env).resolvedNames =
        ((detectPeopleInImage env.detectResponse).filter fun p =>
          p.confidence == Confidence.high || p.confidence == Confidence.medium).map
          fun p => detNameFormat p.name) := by
  rw [processImageCore_not_renamed env hn, procRun_eq env]
  constructor
  · intro hne
    show procDetectCalls env = 0
    have hlen : ¬((procEmbedded env).length = 0) := by
      intro h0
      exact hne (List.length_eq_zero.mp h0)
    unfold procDetectCalls
    rw [if_neg hlen]
  · intro he
    have hemb : procEmbedded env = [] := he
    have hlen : (procEmbedded env).length = 0 := by rw [hemb]; rfl
    have hdet : procDetected env = detectPeopleInImage env.detectResponse := by
      unfold procDetected
      rw [if_pos hlen]
    refine ⟨?_, ?_⟩
    · show procDetectCalls env = 1
      unfold procDetectCalls
      rw [if_pos hlen]
    · show resolvePeopleNames (procEmbedded env) (procDetected env) = _
      rw [hemb, hdet]
      exact resolvePeople_nil_emb _

def envC1 : PhotoEnv :=
  { originalName := str "photo.jpg", photoDate := none, isAlreadyRenamed := false,
    fetchOutcome := .noMetadata,
    detectResponse := .okBody (some [{ name := str "Ana", confidence := .high },
      { name := str "Bo", confidence := .low }]),
    describeOutcome := .okBody (some (str "beach.jpg")), now := 0 }

theorem c1_witness :
    (extractPeopleTags envC1.fetchOutcome).people = [] ∧
      ((processImageCore envC1).detectCalls = 1 ∧
        (processImageCore envC1).resolvedNames =
          ((detectPeopleInImage envC1.detectResponse).filter fun p =>
            p.confidence == Confidence.high || p.confidence == Confidence.medium).map
            fun p => detNameFormat p.name) :=
  ⟨rfl, (c1_detect_decision envC1 rfl).2 rfl⟩

/-- C3 counterexample: a detected person named `Mr. X` with high confidence
reaches the resolved name list as `mr._x`, which is not fixed by the
normalization rule (the rule would give `mr_x`), refuting the claim that
every emitted token is normalized with the same rule as embedded names. -/
theorem c3_counterexample :
    (processImageCore
      { originalName := str "photo.jpg", photoDate := none, isAlreadyRenamed := false,
        fetchOutcome := .noMetadata,
        detectResponse := .okBody (some [{ name := str "Mr. X", confidence := .high }]),
        describeOutcome := .okBody (some (str "beach.jpg")),
        now := 0 }).resolvedNames = [str "mr._x"] ∧
      normalizeName (str "mr._x") ≠ str "mr._x" := by
  constructor
  · rfl
  · decide

/-- C3 (amended): tokens resolved from embedded tags are nonempty and fixed
by the normalization rule; tokens resolved from the external detector are
only lowercased with whitespace runs replaced by underscores — not the full
normalization rule — so they may contain other characters. -/
theorem c3_amended_resolved_tokens (env : PhotoEnv) (hn : env.isAlreadyRenamed = false) :
    ((extractPeopleTags env.fetchOutcome).people ≠ [] →
      ∀ t ∈ (processImageCore env).resolvedNames, t ≠ [] ∧ normalizeName t = t) ∧
    ((extractPeopleTags env.fetchOutcome).people = [] →
      ∀ t ∈ (processImageCore env).resolvedNames,
        ∃ p ∈ detectPeopleInImage env.detectResponse,
          (p.confidence = Confidence.high ∨ p.confidence = Confidence.medium) ∧
            t = detNameFormat p.name) := by
  rw [processImageCore_not_renamed env hn, procRun_eq env]
  constructor
  · intro hne t ht
    show t ≠ [] ∧ normalizeName t = t
    have hlen : 0 < (procEmbedded env).length := by
      unfold procEmbedded
      cases hp : (extractPeopleTags env.fetchOutcome).people with
      | nil => exact absurd hp hne
      | cons p r => simp
    unfold resolvePeopleNames at ht
    rw [if_pos hlen] at ht
    obtain ⟨htm, htl⟩ := List.mem_filter.mp ht
    obtain ⟨p, _, hpt⟩ := List.mem_map.mp htm
    constructor
    · intro hnil
      rw [hnil] at htl
      simp at htl
    · rw [← hpt]
      exact normalize_fixed p.name
  · intro he t ht
    have hemb : procEmbedded env = [] := he
    have hdet : procDetected env = detectPeopleInImage env.detectResponse := by
      unfold procDetected
      rw [if_pos (by rw [hemb]; rfl)]
    rw [hemb, hdet, resolvePeople_nil_emb] at ht
    obtain ⟨p, hpm, hpt⟩ := List.mem_map.mp ht
    obtain ⟨hpd, hpc⟩ := List.mem_filter.mp hpm
    refine ⟨p, hpd, ?_, hpt.symm⟩
    simpa using hpc

theorem c3_amended_witness :
    (extractPeopleTags (PhotoEnv.fetchOutcome
        { originalName := str "photo.jpg", photoDate := none, isAlreadyRenamed := false,
          fetchOutcome := .noMetadata,
          detectResponse := .okBody (some [{ name := str "Liz", confidence := .medium }]),
          describeOutcome := .okBody (some (str "park.jpg")), now := 0 })).people = [] ∧
      (∀ t ∈ (processImageCore
        { originalName := str "photo.jpg", photoDate := none, isAlreadyRenamed := false,
          fetchOutcome := .noMetadata,
          detectResponse := .okBody (some [{ name := str "Liz", confidence := .medium }]),
          describeOutcome := .okBody (some (str "park.jpg")), now := 0 }).resolvedNames,
        ∃ p ∈ detectPeopleInImage (DetectResponse.okBody
            (some [{ name := str "Liz", confidence := .medium }])),
          (p.confidence = Confidence.high ∨ p.confidence = Confidence.medium) ∧
            t = detNameFormat p.name) :=
  ⟨rfl,
    (c3_amended_resolved_tokens
      { originalName := str "photo.jpg", photoDate := none, isAlreadyRenamed := false,
        fetchOutcome := .noMetadata,
        detectResponse := .okBody (some [{ name := str "Liz", confidence := .medium }]),
        describeOutcome := .okBody (some (str "park.jpg")), now := 0 } rfl).2 rfl⟩

theorem splitOnChar_no_sep {sep : Char} : ∀ {s : Str}, sep ∉ s → splitOnChar sep s = [s] := by
  intro s
  induction s with
  | nil => intro _; rfl
  | cons c t ih =>
    intro h
    have hc : ¬ c = sep := fun he => h (he ▸ List.mem_cons_self c t)
    simp only [splitOnChar, if_neg hc]
    rw [ih fun hm => h (List.mem_cons_of_mem _ hm)]

theorem splitOnChar_append_sep : ∀ (base ext : Str), '.' ∉ ext →
    (splitOnChar '.' (base ++ '.' :: ext)).getLast? = some ext ∧
      1 < (splitOnChar '.' (base ++ '.' :: ext)).length := by
  intro base
  induction base with
  | nil =>
    intro ext hext
    show (splitOnChar '.' ('.' :: ext)).getLast? = some ext ∧ _
    simp only [splitOnChar, if_pos rfl]
    rw [splitOnChar_no_sep hext]
    exact ⟨rfl, by simp⟩
  | cons c b ih =>
    intro ext hext
    obtain ⟨ih1, ih2⟩ := ih ext hext
    by_cases hc : c = '.'
    · show (splitOnChar '.' (c :: (b ++ '.' :: ext))).getLast? = some ext ∧ _
      simp only [splitOnChar, if_pos hc]
      cases hl : splitOnChar '.' (b ++ '.' :: ext) with
      | nil => rw [hl] at ih2; simp at ih2
      | cons h0 r =>
        rw [hl] at ih1
        cases r with
        | nil => rw [hl] at ih2; simp at ih2
        | cons r0 r' =>
          constructor
          · rw [List.getLast?_cons_cons]
            exact ih1
          · simp
    · show (splitOnChar '.' (c :: (b ++ '.' :: ext))).getLast? = some ext ∧ _
      simp only [splitOnChar, if_neg hc]
      cases hl : splitOnChar '.' (b ++ '.' :: ext) with
      | nil => rw [hl] at ih2; simp at ih2
      | cons h0 r =>
        rw [hl] at ih1
        cases r with
        | nil => rw [hl] at ih2; simp at ih2
        | cons r0 r' =>
          constructor
          · rw [List.getLast?_cons_cons]
            rw [List.getLast?_cons_cons] at ih1
            exact ih1
          · simp

theorem fallbackExtensionOf_eq (base ext : Str) (hne : ext ≠ []) (hdot : '.' ∉ ext) :
    fallbackExtensionOf (base ++ '.' :: ext) = ext := by
  unfold fallbackExtensionOf
  obtain ⟨h1, _⟩ := splitOnChar_append_sep base ext hdot
  rw [h1]
  show (if ext = [] then str "jpeg" else ext) = ext
  rw [if_neg hne]

/-- C8: when the description-service call fails the pipeline does not
abort: the generated name degrades to the fallback — the fixed front part
`processed_` plus the timestamp, keeping the extension popped from the
original name (which is the original extension whenever the name has one) —
and the photo still ends processed. -/
theorem c8_description_failure_fallback (env : PhotoEnv)
    (hf : describeFails env.describeOutcome = true) (hn : env.isAlreadyRenamed = false) :
    (processImageCore env).processed = true ∧
    generateDescriptiveName env.describeOutcome env.originalName env.now =
      str "processed_" ++ str (Nat.repr env.now) ++ '.' :: fallbackExtensionOf env.originalName ∧
    (∀ base ext, env.originalName = base ++ '.' :: ext → ext ≠ [] → '.' ∉ ext →
      fallbackExtensionOf env.originalName = ext) := by
  refine ⟨?_, ?_, ?_⟩
  · rw [processImageCore_not_renamed env hn, procRun_eq env]
  · cases ho : env.describeOutcome with
    | netErr => rfl
    | httpNotOk s => rfl
    | badJson => rfl
    | okBody sn =>
      cases sn with
      | none => rfl
      | some nm =>
        rw [ho] at hf
        have hnm : nm = [] := by simpa [describeFails] using hf
        show generateDescriptiveName (DescribeOutcome.okBody (some nm)) _ _ = _
        simp only [generateDescriptiveName, if_pos hnm]
        rfl
  · intro base ext heq hne hdot
    rw [heq]
    exact fallbackExtensionOf_eq base ext hne hdot

def envC8 : PhotoEnv :=
  { originalName := str "photo.jpg", photoDate := none, isAlreadyRenamed := false,
    fetchOutcome := .noMetadata, detectResponse := .okBody (some []),
    describeOutcome := .netErr, now := 17 }

theorem c8_witness :
    describeFails envC8.describeOutcome = true ∧ envC8.isAlreadyRenamed = false ∧
      ((processImageCore envC8).processed = true ∧
      generateDescriptiveName envC8.describeOutcome envC8.originalName envC8.now =
        str "processed_" ++ str (Nat.repr envC8.now) ++
          '.' :: fallbackExtensionOf envC8.originalName ∧
      (∀ base ext, envC8.originalName = base ++ '.' :: ext → ext ≠ [] → '.' ∉ ext →
        fallbackExtensionOf envC8.originalName = ext)) :=
  ⟨rfl, rfl, c8_description_failure_fallback envC8 rfl rfl⟩

/-! ### Microsoft bounding-box parsing -/

/-- C6 counterexample: the rectangle value `Infinity,0,0,0` does not consist
of four finite numbers, yet the code produces a bounding box with an
infinite coordinate, because the check only rejects `NaN` values. -/
theorem c6_counterexample :
    extractMSBoundingBox (str "<MP:Rectangle>Infinity,0,0,0</MP:Rectangle>") =
      some { x := JSNum.posInf, y := JSNum.finite 0, width := JSNum.finite 0,
             height := JSNum.finite 0 } ∧
      ¬ ∃ q : ℚ, JSNum.posInf = JSNum.finite q := by
  constructor
  · decide
  · rintro ⟨q, h⟩
    cases h

/-- C6 (amended): a rectangle whose value does not split into exactly four
pieces each parsing to a number other than `NaN` (finiteness is not
required: infinities pass) yields no bounding box and extraction does not
throw, and four such pieces yield the box taken from the four
comma-separated values in order. -/
theorem c6_amended_boundingBox (region : Str) :
    (firstMatch (textBodyAt (str "MP:Rectangle")) region = none →
      extractMSBoundingBox region = none) ∧
    (∀ full cap rest,
      firstMatch (textBodyAt (str "MP:Rectangle")) region = some (full, cap, rest) →
      (¬(((splitOnChar ',' cap).map fun n => parseFloat (jsTrim n)).length = 4 ∧
          ((splitOnChar ',' cap).map fun n => parseFloat (jsTrim n)).all Option.isSome = true) →
        extractMSBoundingBox region = none) ∧
      (∀ a b c d,
        ((splitOnChar ',' cap).map fun n => parseFloat (jsTrim n)) = [some a, some b, some c, some d] →
        extractMSBoundingBox region = some ⟨a, b, c, d⟩)) := by
  constructor
  · intro h
    unfold extractMSBoundingBox
    rw [h]
  · intro full cap rest h
    constructor
    · intro hcond
      unfold extractMSBoundingBox
      rw [h]
      dsimp only
      have hg : ¬((((splitOnChar ',' cap).map fun n => parseFloat (jsTrim n)).length == 4 &&
          ((splitOnChar ',' cap).map fun n => parseFloat (jsTrim n)).all Option.isSome) = true) := by
        intro hgt
        simp only [Bool.and_eq_true, beq_iff_eq] at hgt
        exact hcond hgt
      rw [if_neg hg]
    · intro a b c d hco
      unfold extractMSBoundingBox
      rw [h]
      dsimp only
      rw [hco]
      rfl

theorem c6_witness :
    firstMatch (textBodyAt (str "MP:Rectangle")) (str "<MP:Rectangle>1,2</MP:Rectangle>") =
        some (str "<MP:Rectangle>1,2</MP:Rectangle>", str "1,2", []) ∧
      extractMSBoundingBox (str "<MP:Rectangle>1,2</MP:Rectangle>") = none :=
  ⟨by decide,
    ((c6_amended_boundingBox (str "<MP:Rectangle>1,2</MP:Rectangle>")).2
      (str "<MP:Rectangle>1,2</MP:Rectangle>") (str "1,2") [] (by decide)).1 (by decide)⟩

/-! ### Deduplication across the three schema scans -/

theorem withIdx_map_snd : ∀ (n : Nat) (l : List EmbeddedPerson),
    (withIdx n l).map Prod.snd = l := by
  intro n l
  induction l generalizing n with
  | nil => rfl
  | cons a t ih => simp only [withIdx, List.map_cons, ih]

theorem withIdx_mem_le : ∀ {n : Nat} {l : List EmbeddedPerson} {pr : Nat × EmbeddedPerson},
    pr ∈ withIdx n l → n ≤ pr.1 := by
  intro n l
  induction l generalizing n with
  | nil => intro pr h; simp [withIdx] at h
  | cons a t ih =>
    intro pr h
    rcases List.mem_cons.mp h with h' | h'
    · rw [h']
    · have := ih h'
      omega

theorem withIdx_pairwise : ∀ (n : Nat) (l : List EmbeddedPerson),
    (withIdx n l).Pairwise (fun a b => a.1 < b.1) := by
  intro n l
  induction l generalizing n with
  | nil => exact List.Pairwise.nil
  | cons a t ih =>
    refine List.Pairwise.cons ?_ (ih (n + 1))
    intro b hb
    have := withIdx_mem_le hb
    show n < b.1
    omega

theorem withIdx_shift : ∀ {n : Nat} {l : List EmbeddedPerson} {i : Nat} {p : EmbeddedPerson},
    (i, p) ∈ withIdx n l → (i + 1, p) ∈ withIdx (n + 1) l := by
  intro n l
  induction l generalizing n with
  | nil => intro i p h; simp [withIdx] at h
  | cons a t ih =>
    intro i p h
    rcases List.mem_cons.mp h with h' | h'
    · injection h' with h1 h2
      subst h1; subst h2
      exact List.mem_cons_self _ _
    · exact List.mem_cons_of_mem _ (ih h')

theorem firstIdx_find : ∀ (l : List EmbeddedPerson) (k : Str),
    (firstIdxWithKey k l = none ∧ l.find? (fun q => lowerStr q.name == k) = none) ∨
    (∃ i p, firstIdxWithKey k l = some i ∧
      l.find? (fun q => lowerStr q.name == k) = some p ∧
      lowerStr p.name = k ∧ (i, p) ∈ withIdx 0 l) := by
  intro l k
  induction l with
  | nil => left; exact ⟨rfl, rfl⟩
  | cons a t ih =>
    by_cases ha : lowerStr a.name = k
    · right
      refine ⟨0, a, ?_, ?_, ha, ?_⟩
      · simp only [firstIdxWithKey, if_pos ha]
      · rw [List.find?_cons_of_pos _ (by simp [ha])]
      · exact List.mem_cons_self _ _
    · rcases ih with ⟨ih1, ih2⟩ | ⟨i, p, ih1, ih2, ih3, ih4⟩
      · left
        constructor
        · simp only [firstIdxWithKey, if_neg ha, ih1]
          rfl
        · rw [List.find?_cons_of_neg _ (by simp [ha])]
          exact ih2
      · right
        refine ⟨i + 1, p, ?_, ?_, ih3, ?_⟩
        · simp only [firstIdxWithKey, if_neg ha, ih1]
          rfl
        · rw [List.find?_cons_of_neg _ (by simp [ha])]
          exact ih2
        · exact List.mem_cons_of_mem _ (withIdx_shift ih4)

theorem dedup_pairwise (l : List EmbeddedPerson) :
    (dedupPeople l).Pairwise (fun p q => lowerStr p.name ≠ lowerStr q.name) := by
  unfold dedupPeople
  rw [List.pairwise_map]
  refine List.Pairwise.imp_of_mem ?_ ((withIdx_pairwise 0 l).filter _)
  intro a b ha hb hab hk
  obtain ⟨-, hca⟩ := List.mem_filter.mp ha
  obtain ⟨-, hcb⟩ := List.mem_filter.mp hb
  rw [beq_iff_eq] at hca hcb
  rw [hk] at hca
  rw [hca] at hcb
  have : a.1 = b.1 := Option.some_inj.mp hcb
  omega

theorem dedup_keeps_first {l : List EmbeddedPerson} {k : Str} {p : EmbeddedPerson}
    (h : l.find? (fun q => lowerStr q.name == k) = some p) : p ∈ dedupPeople l := by
  rcases firstIdx_find l k with ⟨-, h2⟩ | ⟨i, p', h1, h2, h3, h4⟩
  · rw [h] at h2; cases h2
  · rw [h] at h2
    obtain rfl : p' = p := (Option.some_inj.mp h2).symm
    unfold dedupPeople
    refine List.mem_map.mpr ⟨(i, p'), ?_, rfl⟩
    refine List.mem_filter.mpr ⟨h4, ?_⟩
    rw [h3, h1]
    simp

theorem dedup_subset {l : List EmbeddedPerson} {p : EmbeddedPerson}
    (h : p ∈ dedupPeople l) : p ∈ l := by
  unfold dedupPeople at h
  obtain ⟨pr, hpr, heq⟩ := List.mem_map.mp h
  have hm : pr ∈ withIdx 0 l := (List.mem_filter.mp hpr).1
  have hsnd : pr.2 ∈ (withIdx 0 l).map Prod.snd := List.mem_map_of_mem _ hm
  rw [withIdx_map_snd] at hsnd
  exact heq ▸ hsnd

theorem ms_source : ∀ {s : Str} {p : EmbeddedPerson}, p ∈ parseMicrosoftPeopleTags s →
    p.source = Source.windows_gallery := by
  intro s p h
  unfold parseMicrosoftPeopleTags at h
  split at h
  · exact (List.not_mem_nil p h).elim
  · unfold parseMSRegionsList at h
    split at h
    · exact (List.not_mem_nil p h).elim
    · unfold parseMSRegionItems at h
      obtain ⟨region, hr, hf⟩ := List.mem_filterMap.mp h
      unfold msPersonOfRegion at hf
      split at hf
      · cases hf
      · split at hf
        · cases hf
        · rw [← Option.some_inj.mp hf]

/-- C2: extraction concatenates the Microsoft, MWG and IPTC scans in that
order and deduplicates by case-insensitive name keeping first occurrences:
the result has pairwise distinct case-insensitive names, contains the first
occurrence of every name of the concatenation and nothing else, and a name
already present in the Microsoft scan yields exactly the Microsoft entry,
attributed to the Microsoft convention. -/
theorem c2_dedup_first_occurrence (s : Str) :
    parsePeopleFromXMP s =
      dedupPeople (parseMicrosoftPeopleTags s ++ parseMWGRegions s ++ parseIPTCPersonTags s) ∧
    (parsePeopleFromXMP s).Pairwise (fun p q => lowerStr p.name ≠ lowerStr q.name) ∧
    (∀ k p,
      (parseMicrosoftPeopleTags s ++ parseMWGRegions s ++ parseIPTCPersonTags s).find?
        (fun q => lowerStr q.name == k) = some p → p ∈ parsePeopleFromXMP s) ∧
    (∀ p ∈ parsePeopleFromXMP s,
      p ∈ parseMicrosoftPeopleTags s ++ parseMWGRegions s ++ parseIPTCPersonTags s) ∧
    (∀ k p, (parseMicrosoftPeopleTags s).find? (fun q => lowerStr q.name == k) = some p →
      p ∈ parsePeopleFromXMP s ∧ p.source = Source.windows_gallery) := by
  refine ⟨rfl, dedup_pairwise _, ?_, ?_, ?_⟩
  · intro k p h
    exact dedup_keeps_first h
  · intro p hp
    exact dedup_subset hp
  · intro k p h
    have hcat : (parseMicrosoftPeopleTags s ++ parseMWGRegions s ++ parseIPTCPersonTags s).find?
        (fun q => lowerStr q.name == k) = some p := by
      rw [List.find?_append, List.find?_append, h]
      rfl
    exact ⟨dedup_keeps_first hcat, ms_source (List.mem_of_find?_eq_some h)⟩

def blobC2 : Str :=
  str "<MP:RegionInfo><MP:Regions><rdf:li><MP:PersonDisplayName>Mom</MP:PersonDisplayName></rdf:li></MP:Regions></MP:RegionInfo><Iptc4xmpExt:PersonInImage>MOM</Iptc4xmpExt:PersonInImage>"

theorem c2_witness :
    (parseMicrosoftPeopleTags blobC2).find? (fun q => lowerStr q.name == str "mom") =
      some { name := str "Mom", boundingBox := none, source := Source.windows_gallery } ∧
    ({ name := str "Mom", boundingBox := none,
        source := Source.windows_gallery : EmbeddedPerson } ∈ parsePeopleFromXMP blobC2 ∧
      ({ name := str "Mom", boundingBox := none,
          source := Source.windows_gallery : EmbeddedPerson }).source = Source.windows_gallery) :=
  ⟨by decide, (c2_dedup_first_occurrence blobC2).2.2.2.2 (str "mom") _ (by decide)⟩

/-! ### The per-parser leniency contract and parser independence -/

theorem allGo_succ (m : Str → Option (Nat × Str × Str)) (n : Nat) (s : Str) :
    allGo m (n + 1) s =
      match firstMatch m s with
      | none => []
      | some (full, cap, rest) => (full, cap) :: allGo m n rest := rfl

theorem allMatches_nil_iff (m : Str → Option (Nat × Str × Str)) (s : Str) :
    allMatches m s = [] ↔ firstMatch m s = none := by
  unfold allMatches
  rw [allGo_succ]
  split
  · simp_all
  · simp_all

theorem allMatches_eq_cons (m : Str → Option (Nat × Str × Str)) (s : Str) {f c r : Str}
    (h : firstMatch m s = some (f, c, r)) :
    allMatches m s = (f, c) :: allGo m s.length r := by
  unfold allMatches
  rw [allGo_succ, h]

theorem allMatches_firstMatch_cap (m : Str → Option (Nat × Str × Str)) {s₁ s₂ : Str}
    (h : allMatches m s₁ = allMatches m s₂) :
    (firstMatch m s₁).map (fun t => t.2.1) = (firstMatch m s₂).map (fun t => t.2.1) := by
  rcases hf₁ : firstMatch m s₁ with _ | ⟨f₁, c₁, r₁⟩ <;>
    rcases hf₂ : firstMatch m s₂ with _ | ⟨f₂, c₂, r₂⟩
  · rfl
  · rw [(allMatches_nil_iff m s₁).mpr hf₁, allMatches_eq_cons m s₂ hf₂] at h
    cases h
  · rw [(allMatches_nil_iff m s₂).mpr hf₂, allMatches_eq_cons m s₁ hf₁] at h
    cases h
  · rw [allMatches_eq_cons m s₁ hf₁, allMatches_eq_cons m s₂ hf₂] at h
    injection h with h1 h2
    injection h1 with h3 h4
    show some c₁ = some c₂
    rw [h4]

theorem iptcBag_congr {o₁ o₂ : Option (Str × Str × Str)}
    (h : o₁.map (fun t => t.2.1) = o₂.map (fun t => t.2.1)) :
    iptcBagPeople o₁ = iptcBagPeople o₂ := by
  rcases o₁ with _ | ⟨f₁, c₁, r₁⟩ <;> rcases o₂ with _ | ⟨f₂, c₂, r₂⟩
  · rfl
  · cases h
  · cases h
  · have h1 : c₁ = c₂ := Option.some_inj.mp h
    show iptcBagPeople (some (f₁, c₁, r₁)) = iptcBagPeople (some (f₂, c₂, r₂))
    unfold iptcBagPeople
    rw [h1]

/-- C5: each schema scan is a total function that returns the empty list
when its container is absent (no match for the outer container) or
malformed (an outer container without the inner regions layer); and each
scan's output is a function of its own convention's matches alone, so the
absence or corruption of one convention's container never affects the
entries produced by another parser. -/
theorem c5_parser_contract :
    (∀ s : Str, firstMatch (lazyBodyAt (str "MP:RegionInfo")) s = none →
      parseMicrosoftPeopleTags s = []) ∧
    (∀ s pre info rest,
      firstMatch (lazyBodyAt (str "MP:RegionInfo")) s = some (pre, info, rest) →
      firstMatch (lazyBodyAt (str "MP:Regions")) info = none →
      parseMicrosoftPeopleTags s = []) ∧
    (∀ s : Str, firstMatch (lazyBodyAt (str "mwg-rs:RegionInfo")) s = none →
      parseMWGRegions s = []) ∧
    (∀ s pre info rest,
      firstMatch (lazyBodyAt (str "mwg-rs:RegionInfo")) s = some (pre, info, rest) →
      firstMatch (lazyBodyAt (str "mwg-rs:Regions")) info = none →
      parseMWGRegions s = []) ∧
    (∀ s : Str, allMatches (lazyBodyAt (str "Iptc4xmpExt:PersonInImage")) s = [] →
      parseIPTCPersonTags s = []) ∧
    (∀ s₁ s₂ : Str, firstMatch (lazyBodyAt (str "MP:RegionInfo")) s₁ =
        firstMatch (lazyBodyAt (str "MP:RegionInfo")) s₂ →
      parseMicrosoftPeopleTags s₁ = parseMicrosoftPeopleTags s₂) ∧
    (∀ s₁ s₂ : Str, firstMatch (lazyBodyAt (str "mwg-rs:RegionInfo")) s₁ =
        firstMatch (lazyBodyAt (str "mwg-rs:RegionInfo")) s₂ →
      parseMWGRegions s₁ = parseMWGRegions s₂) ∧
    (∀ s₁ s₂ : Str, allMatches (lazyBodyAt (str "Iptc4xmpExt:PersonInImage")) s₁ =
        allMatches (lazyBodyAt (str "Iptc4xmpExt:PersonInImage")) s₂ →
      parseIPTCPersonTags s₁ = parseIPTCPersonTags s₂) := by
  refine ⟨?_, ?_, ?_, ?_, ?_, ?_, ?_, ?_⟩
  · intro s h
    unfold parseMicrosoftPeopleTags
    rw [h]
  · intro s pre info rest h1 h2
    unfold parseMicrosoftPeopleTags
    rw [h1]
    show parseMSRegionsList info = []
    unfold parseMSRegionsList
    rw [h2]
  · intro s h
    unfold parseMWGRegions
    rw [h]
  · intro s pre info rest h1 h2
    unfold parseMWGRegions
    rw [h1]
    show parseMWGRegionsList info = []
    unfold parseMWGRegionsList
    rw [h2]
  · intro s h
    unfold parseIPTCPersonTags
    rw [h, (allMatches_nil_iff _ _).mp h]
    rfl
  · intro s₁ s₂ h
    unfold parseMicrosoftPeopleTags
    rw [h]
  · intro s₁ s₂ h
    unfold parseMWGRegions
    rw [h]
  · intro s₁ s₂ h
    unfold parseIPTCPersonTags
    rw [h, iptcBag_congr (allMatches_firstMatch_cap _ h)]

def blobC5 : Str := str "<MP:RegionInfo><MP:NotRegions>x</MP:NotRegions></MP:RegionInfo>"

theorem c5_witness :
    firstMatch (lazyBodyAt (str "MP:RegionInfo")) blobC5 =
        some (blobC5, str "<MP:NotRegions>x</MP:NotRegions>", []) ∧
      firstMatch (lazyBodyAt (str "MP:Regions")) (str "<MP:NotRegions>x</MP:NotRegions>") = none ∧
      parseMicrosoftPeopleTags blobC5 = [] :=
  ⟨by decide, by decide,
    c5_parser_contract.2.1 blobC5 blobC5 (str "<MP:NotRegions>x</MP:NotRegions>") []
      (by decide) (by decide)⟩

/-! ### The batch scheduler -/

theorem workingIds_append (l₁ l₂ : List WStatus) :
    workingIds (l₁ ++ l₂) = workingIds l₁ ++ workingIds l₂ := by
  unfold workingIds
  exact List.filterMap_append _ _ _

theorem workingIds_cons_idle (l : List WStatus) :
    workingIds (WStatus.idle :: l) = workingIds l := rfl

theorem workingIds_cons_done (l : List WStatus) :
    workingIds (WStatus.done :: l) = workingIds l := rfl

theorem workingIds_cons_working (i : Nat) (l : List WStatus) :
    workingIds (WStatus.working i :: l) = i :: workingIds l := rfl

theorem workingIds_replicate_idle (n : Nat) :
    workingIds (List.replicate n WStatus.idle) = [] := by
  induction n with
  | zero => rfl
  | succ k ih => rw [List.replicate_succ, workingIds_cons_idle, ih]

theorem workingIds_all_done : ∀ {ws : List WStatus}, (∀ w ∈ ws, w = WStatus.done) →
    workingIds ws = [] := by
  intro ws
  induction ws with
  | nil => intro _; rfl
  | cons a t ih =>
    intro h
    rw [h a (List.mem_cons_self _ _)]
    rw [workingIds_cons_done]
    exact ih fun w hw => h w (List.mem_cons_of_mem _ hw)

/-- The inductive invariant of the scheduler: the claimed queue positions
are, in claim order, exactly the range below the cursor (cut at `N`); the
positions being worked on together with the finished positions are a
permutation of the claimed ones; a worker can only have ended after the
cursor reached `N`; and the pool size is fixed. -/
def SchedInv (N : Nat) (s : SchedState) : Prop :=
  s.claims.map Prod.snd = List.range (min s.qIndex N) ∧
  (workingIds s.workers ++ s.finished).Perm (s.claims.map Prod.snd) ∧
  (WStatus.done ∈ s.workers → N ≤ s.qIndex) ∧
  s.workers.length = min 3 N

theorem schedInv_start (N : Nat) : SchedInv N (schedStart N) := by
  refine ⟨?_, ?_, ?_, ?_⟩
  · show ([] : List (Nat × Nat)).map Prod.snd = List.range (min 0 N)
    simp
  · show (workingIds (List.replicate (min 3 N) WStatus.idle) ++ []).Perm
      (([] : List (Nat × Nat)).map Prod.snd)
    rw [workingIds_replicate_idle]
    exact List.Perm.refl _
  · intro hd
    exact absurd (List.eq_of_mem_replicate hd) (by simp)
  · simp [schedStart]

theorem schedInv_step {N : Nat} {s s' : SchedState} (hstep : SchedStep N s s')
    (hs : SchedInv N s) : SchedInv N s' := by
  cases hstep with
  | claim_run pre post i cl fin hiN =>
    obtain ⟨hc, hp, hd, hw⟩ := hs
    dsimp only at hc hp hd hw
    rw [workingIds_append, workingIds_cons_idle] at hp
    refine ⟨?_, ?_, ?_, ?_⟩
    · dsimp only
      rw [List.map_append, hc]
      simp only [List.map_cons, List.map_nil]
      rw [min_eq_left (Nat.le_of_lt hiN), min_eq_left hiN, List.range_succ]
    · dsimp only
      rw [workingIds_append, workingIds_cons_working, List.map_append]
      simp only [List.map_cons, List.map_nil]
      exact (List.perm_middle.append_right fin).trans
        ((hp.cons i).trans (List.perm_append_singleton i _).symm)
    · dsimp only
      intro hdone
      have hmem : WStatus.done ∈ pre ++ WStatus.idle :: post := by
        rcases List.mem_append.mp hdone with h' | h'
        · exact List.mem_append.mpr (Or.inl h')
        · rcases List.mem_cons.mp h' with h'' | h''
          · cases h''
          · exact List.mem_append.mpr (Or.inr (List.mem_cons_of_mem _ h''))
      have := hd hmem
      omega
    · dsimp only
      simp only [List.length_append, List.length_cons] at hw ⊢
      exact hw
  | claim_stop pre post i cl fin hiN =>
    obtain ⟨hc, hp, hd, hw⟩ := hs
    dsimp only at hc hp hd hw
    rw [workingIds_append, workingIds_cons_idle] at hp
    refine ⟨?_, ?_, ?_, ?_⟩
    · dsimp only
      rw [hc, min_eq_right hiN, min_eq_right (Nat.le_succ_of_le hiN)]
    · dsimp only
      rw [workingIds_append, workingIds_cons_done]
      exact hp
    · dsimp only
      intro _
      omega
    · dsimp only
      simp only [List.length_append, List.length_cons] at hw ⊢
      exact hw
  | finish pre post q i cl fin =>
    obtain ⟨hc, hp, hd, hw⟩ := hs
    dsimp only at hc hp hd hw
    rw [workingIds_append, workingIds_cons_working] at hp
    refine ⟨?_, ?_, ?_, ?_⟩
    · dsimp only
      exact hc
    · dsimp only
      rw [workingIds_append, workingIds_cons_idle, ← List.append_assoc]
      exact (List.perm_append_singleton i _).trans
        (((List.perm_middle.append_right fin).symm).trans hp)
    · dsimp only
      intro hdone
      have hmem : WStatus.done ∈ pre ++ WStatus.working i :: post := by
        rcases List.mem_append.mp hdone with h' | h'
        · exact List.mem_append.mpr (Or.inl h')
        · rcases List.mem_cons.mp h' with h'' | h''
          · cases h''
          · exact List.mem_append.mpr (Or.inr (List.mem_cons_of_mem _ h''))
      exact hd hmem
    · dsimp only
      simp only [List.length_append, List.length_cons] at hw ⊢
      exact hw

theorem schedInv_reach {N : Nat} {s : SchedState}
    (h : SchedReach N (schedStart N) s) : SchedInv N s := by
  unfold SchedReach at h
  induction h with
  | refl => exact schedInv_start N
  | tail hsteps hstep ih => exact schedInv_step hstep ih

/-- C9: in every run of the batch with `min 3 N` workers sharing one queue
cursor, no queue position is ever claimed twice (in particular never by two
workers), and when every worker's loop has ended — the join on which the
batch completes — the multiset of finished positions is exactly the `N`
submitted ones, each processed exactly once, whatever the interleaving and
whatever delays occurred. -/
theorem c9_batch_exactly_once (N : Nat) (s : SchedState)
    (h : SchedReach N (schedStart N) s) :
    (s.claims.map Prod.snd).Nodup ∧
    ((∀ w ∈ s.workers, w = WStatus.done) → s.finished.Perm (List.range N)) := by
  obtain ⟨hc, hp, hd, hw⟩ := schedInv_reach h
  constructor
  · rw [hc]
    exact List.nodup_range _
  · intro hall
    have hwork : workingIds s.workers = [] := workingIds_all_done hall
    have hmin : min s.qIndex N = N := by
      rcases Nat.eq_zero_or_pos N with h0 | hpos
      · subst h0; simp
      · have hlen : 0 < s.workers.length := by
          rw [hw]
          exact lt_min (by norm_num) hpos
        obtain ⟨w0, hw0⟩ : ∃ w, w ∈ s.workers := by
          cases hws : s.workers with
          | nil => rw [hws] at hlen; simp at hlen
          | cons a t => exact ⟨a, List.mem_cons_self _ _⟩
        have hdone : WStatus.done ∈ s.workers := by
          rw [← hall w0 hw0]
          exact hw0
        exact min_eq_right (hd hdone)
    rw [hwork] at hp
    rw [hc, hmin] at hp
    simpa using hp

theorem c9_witness :
    ((([(0, 0)] : List (Nat × Nat)).map Prod.snd).Nodup ∧
      ((∀ w ∈ [WStatus.done], w = WStatus.done) → [0].Perm (List.range 1))) := by
  have s1 : SchedStep 1 (schedStart 1) ⟨1, [WStatus.working 0], [(0, 0)], []⟩ :=
    SchedStep.claim_run [] [] 0 [] [] (by omega)
  have s2 : SchedStep 1 ⟨1, [WStatus.working 0], [(0, 0)], []⟩
      ⟨1, [WStatus.idle], [(0, 0)], [0]⟩ :=
    SchedStep.finish [] [] 1 0 [(0, 0)] []
  have s3 : SchedStep 1 ⟨1, [WStatus.idle], [(0, 0)], [0]⟩
      ⟨2, [WStatus.done], [(0, 0)], [0]⟩ :=
    SchedStep.claim_stop [] [] 1 [(0, 0)] [0] (by omega)
  have hreach : SchedReach 1 (schedStart 1) ⟨2, [WStatus.done], [(0, 0)], [0]⟩ :=
    Relation.ReflTransGen.head s1 (Relation.ReflTransGen.head s2
      (Relation.ReflTransGen.head s3 Relation.ReflTransGen.refl))
  exact c9_batch_exactly_once 1 ⟨2, [WStatus.done], [(0, 0)], [0]⟩ hreach

end ImageRenamer
